import Mathlib

/-!
Verification of the schema-relationship-graph builder and join-path resolver
in `resolve_join_using_a_graph.py`.

The Python program builds an undirected `networkx` graph whose nodes are the
table names of an SQLAlchemy schema and whose edges carry a `join_on`
attribute `((owning_table, owning_column), (referenced_table, referenced_column))`
computed from the schema's foreign keys (`create_graph`), and resolves a join
plan between two tables by running `nx.shortest_path` and converting the node
sequence into a list of join steps (`resolve_join`).

The shallow embedding below mirrors the source:
* a schema is the list `Base.metadata.sorted_tables`, each table carrying its
  name and the foreign keys iterated by `table.foreign_keys`;
* the `networkx` graph is modelled by its node list and its edge store, a list
  of entries keyed by the (orientation-preserving) endpoint pair, where
  `add_edge` overwrites the `join_on` attribute of an existing entry for the
  same unordered pair and appends a fresh entry otherwise, exactly as the
  `networkx` adjacency update does;
* `nx.shortest_path` is modelled by its documented behaviour (an unweighted
  breadth-first search that raises `NodeNotFound` when an endpoint is absent
  and `NetworkXNoPath` when the endpoints are disconnected), here a fuelled
  BFS whose fuel `(nodesOf g).length` is proved sufficient.
-/

namespace AutoJoin

/-- A join descriptor: `((owning_table, owning_column), (referenced_table, referenced_column))`,
the `join_on` tuple of `create_graph`. -/
abbrev JoinOn := (String × String) × (String × String)

/-- One foreign key as iterated by `table.foreign_keys` in the source:
`column_keys` is `fk.constraint.column_keys` (the owning columns of the
constraint, never empty for a real SQLAlchemy constraint), `target_table`
is `str(fk.column.table)` and `target_column` is `str(fk.column.name)`. -/
structure FK where
  column_keys : List String
  target_table : String
  target_column : String
  deriving Repr, DecidableEq

/-- One table of the schema: its name and its foreign keys. -/
structure Table where
  name : String
  fks : List FK
  deriving Repr, DecidableEq

/-- A schema, in the order of `Base.metadata.sorted_tables`. -/
abbrev Schema := List Table

/-- The `networkx` graph: insertion-ordered node list and edge store.
Each edge entry `(u, v, jo)` keeps the endpoint orientation of its first
insertion and its current `join_on` attribute. -/
structure Graph where
  nodeList : List String
  edgeList : List (String × String × JoinOn)
  deriving Repr, DecidableEq

/-- The empty graph `nx.Graph()`. -/
def Graph.empty : Graph := ⟨[], []⟩

/-- `G.add_node n`: appends the node unless it is already present. -/
def Graph.add_node (g : Graph) (n : String) : Graph :=
  if n ∈ g.nodeList then g else ⟨g.nodeList ++ [n], g.edgeList⟩

/-- Whether the stored endpoint pair `a` names the same unordered pair as `b`. -/
def samePair (a b : String × String) : Bool :=
  (a.1 == b.1 && a.2 == b.2) || (a.1 == b.2 && a.2 == b.1)

/-- `G.add_edge u v join_on=jo`: makes sure both endpoints are nodes, then
overwrites the `join_on` attribute of the existing entry for the unordered
pair `{u, v}` (keeping that entry's stored orientation, as the `networkx`
adjacency update does) or appends a fresh entry. -/
def Graph.add_edge (g : Graph) (u v : String) (jo : JoinOn) : Graph :=
  let g' := (g.add_node u).add_node v
  if g'.edgeList.any (fun e => samePair (e.1, e.2.1) (u, v)) then
    ⟨g'.nodeList, g'.edgeList.map
      (fun e => if samePair (e.1, e.2.1) (u, v) then (e.1, e.2.1, jo) else e)⟩
  else
    ⟨g'.nodeList, g'.edgeList ++ [(u, v, jo)]⟩

/-- `graph.edges[(u, v)]['join_on']`: the attribute of the edge between `u`
and `v`, queried in either orientation; `none` models the `KeyError` of a
missing edge. -/
def Graph.getJoinOn (g : Graph) (u v : String) : Option JoinOn :=
  (g.edgeList.find? (fun e => samePair (e.1, e.2.1) (u, v))).map (fun e => e.2.2)

/-- All nodes of the graph: the explicit nodes together with every edge
endpoint (`add_edge` inserts missing endpoints as nodes). For graphs built
by `Graph.add_node`/`Graph.add_edge` the endpoints are already in
`nodeList`, so this is just a convenient total description. -/
def Graph.nodesOf (g : Graph) : List String :=
  (g.nodeList ++ g.edgeList.flatMap (fun e => [e.1, e.2.1])).dedup

/-- The neighbours of `u`: the other endpoint of every edge incident to `u`. -/
def Graph.neighbors (g : Graph) (u : String) : List String :=
  (g.edgeList.filterMap
    (fun e => if e.1 = u then some e.2.1 else if e.2.1 = u then some e.1 else none)).dedup

/-- Adjacency: there is an edge between `u` and `v`. -/
def Graph.adj (g : Graph) (u v : String) : Prop := (g.getJoinOn u v).isSome

instance (g : Graph) (u v : String) : Decidable (g.adj u v) :=
  inferInstanceAs (Decidable ((g.getJoinOn u v).isSome = true))

/-- `u` and `v` are in the same connected component of `g`. -/
def Graph.Connected (g : Graph) (u v : String) : Prop :=
  Relation.ReflTransGen g.adj u v

/-- `create_graph(Base)` (the pure graph construction; the optional plotting
is modelled separately by `create_graph_run`).

The source's second loop reads `table_name = str(t.name)` where `t` is the
stale loop variable of the *node* loop, so `table_name` is the name of the
**last** table of `sorted_tables` for every iteration; the embedding
reproduces this faithfully. -/
def create_graph (schema : Schema) : Graph :=
  let withNodes := schema.foldl (fun g t => g.add_node t.name) Graph.empty
  let table_name := ((schema.getLast?).map Table.name).getD ""
  schema.foldl
    (fun g table =>
      table.fks.foldl
        (fun g fk =>
          let table_column := fk.column_keys.headI
          let join_on : JoinOn :=
            ((table_name, table_column), (fk.target_table, fk.target_column))
          g.add_edge table_name fk.target_table join_on)
        g)
    withNodes

/-- The edge-insertion datum `(u, v, join_on)` that `create_graph` computes
for one foreign key, given the (stale) `table_name` it is using. -/
def fkInsertion (table_name : String) (fk : FK) : String × String × JoinOn :=
  (table_name, fk.target_table,
    ((table_name, fk.column_keys.headI), (fk.target_table, fk.target_column)))

/-- The sequence of `add_edge` calls `(u, v, join_on)` performed by
`create_graph`, in program order. -/
def edgeInsertions (schema : Schema) : List (String × String × JoinOn) :=
  let table_name := ((schema.getLast?).map Table.name).getD ""
  schema.flatMap (fun table => table.fks.map (fkInsertion table_name))

/-- The side effects of one `create_graph` call. -/
inductive Effect where
  | plot
  deriving Repr, DecidableEq

/-- `create_graph(Base, plot)` including its observable effects: when
`plot` is true (the default, and the value used by the script's call
`create_graph(Base, plot=True)`) the function additionally renders the
graph with matplotlib (`plt.figure` / `nx.draw` / `plt.show`). -/
def create_graph_run (schema : Schema) (plot : Bool) : Graph × List Effect :=
  (create_graph schema, if plot then [Effect.plot] else [])

/-- The errors `resolve_join` can raise: `nodeNotFound` models
`nx.NodeNotFound`, `noPath` models `nx.NetworkXNoPath`, and `missingEdge`
models the `KeyError` of the `graph.edges[...]` lookup. -/
inductive ResolveErr where
  | nodeNotFound
  | noPath
  | missingEdge
  deriving Repr, DecidableEq

/-- The breadth-first search behind `nx.shortest_path`: the queue holds
reversed partial paths (current node first), `visited` the nodes ever
enqueued. Fuel only bounds the number of dequeues; `(nodesOf g).length`
is proved sufficient below. -/
def bfsLoop (g : Graph) (target : String) :
    Nat → List (List String) → List String → Option (List String)
  | 0, _, _ => none
  | _ + 1, [], _ => none
  | fuel + 1, p :: rest, visited =>
    match p with
    | [] => bfsLoop g target fuel rest visited
    | cur :: _ =>
      if cur = target then some p.reverse
      else
        let ns := (g.neighbors cur).filter (fun n => decide (¬ n ∈ visited))
        bfsLoop g target fuel (rest ++ ns.map (fun n => n :: p)) (visited ++ ns)

/-- `nx.shortest_path(graph, source, target)`: `NodeNotFound` when an
endpoint is absent, otherwise an unweighted shortest-path search that
raises `NetworkXNoPath` exactly when the endpoints are disconnected. -/
def shortest_path (g : Graph) (s t : String) : Except ResolveErr (List String) :=
  if s ∈ g.nodesOf ∧ t ∈ g.nodesOf then
    match bfsLoop g t g.nodesOf.length [[s]] [s] with
    | some p => Except.ok p
    | none => Except.error ResolveErr.noPath
  else Except.error ResolveErr.nodeNotFound

/-- The path-processing loop of `resolve_join`: walk the consecutive pairs of
`path`, look up each edge's `join_on`, and append `(path[index+1], join_on)`
to the insertion-ordered association list `acc` (the Python `joins` dict)
unless that key is already present — the `if path[index + 1] not in joins`
check of the source. -/
def buildJoins (g : Graph) :
    List String → List (String × JoinOn) → Except ResolveErr (List (String × JoinOn))
  | [], acc => Except.ok acc
  | [_], acc => Except.ok acc
  | u :: v :: rest, acc =>
    match g.getJoinOn u v with
    | none => Except.error ResolveErr.missingEdge
    | some jo =>
      buildJoins g (v :: rest) (if acc.any (fun e => e.1 == v) then acc else acc ++ [(v, jo)])

/-- `resolve_join(graph, table_start, table_end)`: shortest path, then the
join list `[(table, *joins[table]) for table in joins]` — each element is
the introduced table paired with its `join_on` tuple. -/
def resolve_join (g : Graph) (table_start table_end : String) :
    Except ResolveErr (List (String × JoinOn)) :=
  (shortest_path g table_start table_end).bind (fun p => buildJoins g p [])

/-! ### The concrete library schema of the script

`sorted_tables` of the script's metadata is `[catalogs, authors, books]`:
`catalogs` and `authors` (no dependencies, in class-definition order)
followed by `books`, which holds foreign keys `author_id → authors.id`
and `catalog_id → catalogs.id`. -/

/-- The `catalogs` table. -/
def catalogsTable : Table := { name := "catalogs", fks := [] }

/-- The `authors` table. -/
def authorsTable : Table := { name := "authors", fks := [] }

/-- The `books` table with its two foreign keys. -/
def booksTable : Table :=
  { name := "books"
    fks := [ { column_keys := ["author_id"], target_table := "authors", target_column := "id" }
           , { column_keys := ["catalog_id"], target_table := "catalogs", target_column := "id" } ] }

/-- The script's schema in `sorted_tables` order. -/
def librarySchema : Schema := [catalogsTable, authorsTable, booksTable]

/-- The graph `g = create_graph(Base)` of the script. -/
def libraryGraph : Graph := create_graph librarySchema

/-! ### A schema exhibiting the stale `table_name` of the builder

Tables in `sorted_tables` order `[r, x, z]`: `x` holds the foreign key
`rid → r.id` (so `r` precedes `x` topologically) and `z` is an independent
table that sorts last. The intended graph has the edge `x – r`; the code
keys every edge by the name of the last table, `z`. -/

/-- Table `r`, referenced by `x`. -/
def rTable : Table := { name := "r", fks := [] }

/-- Table `x` with the foreign key `rid → r.id`. -/
def xTable : Table :=
  { name := "x", fks := [ { column_keys := ["rid"], target_table := "r", target_column := "id" } ] }

/-- Table `z`, independent and last in sorted order. -/
def zTable : Table := { name := "z", fks := [] }

/-- The three-table schema that makes the stale `table_name` observable. -/
def bugSchema : Schema := [rTable, xTable, zTable]

/-! ### A graph and path exercising the resolver's deduplication branch

`buildJoins` is the part of `resolve_join` that runs after the shortest-path
search; feeding it a node sequence with a repeated node exercises the
`if path[index + 1] not in joins` branch of the source directly. -/

/-- A path graph `a – b – c`, written as a literal `networkx` value. -/
def dupGraph : Graph :=
  ⟨["a", "b", "c"],
   [("a", "b", (("b", "a_id"), ("a", "id"))),
    ("b", "c", (("c", "b_id"), ("b", "id")))]⟩

/-! ### Auxiliary definitions used by the verification -/

/-- Replay a list of `add_edge` calls. -/
def applyInsertions (g : Graph) (l : List (String × String × JoinOn)) : Graph :=
  l.foldl (fun g e => g.add_edge e.1 e.2.1 e.2.2) g

/-- The graph holding only the schema's nodes, before any edge is added. -/
def nodesGraph (schema : Schema) : Graph :=
  schema.foldl (fun g t => g.add_node t.name) Graph.empty

/-- At most one stored edge entry per unordered table pair. -/
def UniquePairs (g : Graph) : Prop :=
  g.edgeList.Pairwise (fun e e' => samePair (e.1, e.2.1) (e'.1, e'.2.1) = false)

/-- Every stored `join_on` names its edge's two endpoints (in one of the two
orientations). -/
def EndpointsMatch (g : Graph) : Prop :=
  ∀ e ∈ g.edgeList,
    (e.2.2.1.1 = e.1 ∧ e.2.2.2.1 = e.2.1) ∨ (e.2.2.1.1 = e.2.1 ∧ e.2.2.2.1 = e.1)

/-- The invariant carried by every queue entry of `bfsLoop`: a non-empty,
duplicate-free reversed walk that starts (at its stored tail) in `s`, whose
consecutive nodes are adjacent and whose nodes are all marked visited. -/
def QInv (g : Graph) (s : String) (visited : List String) (q : List String) : Prop :=
  q ≠ [] ∧ q.getLast? = some s ∧ List.Chain' g.adj q ∧ q.Nodup ∧ ∀ x ∈ q, x ∈ visited

/-- The join step emitted for each consecutive pair of a walk (defined as
long as the edges exist; along a `Chain'` it covers the whole walk). -/
def stepsOf (g : Graph) : List String → List (String × JoinOn)
  | u :: v :: rest =>
    match g.getJoinOn u v with
    | some jo => (v, jo) :: stepsOf g (v :: rest)
    | none => []
  | _ => []

/-! ## Basic lemmas about the graph embedding -/

instance {ε α : Type} [DecidableEq ε] [DecidableEq α] : DecidableEq (Except ε α) := fun a b =>
  match a, b with
  | Except.ok x, Except.ok y =>
    if h : x = y then isTrue (by rw [h]) else isFalse (by intro hc; cases hc; exact h rfl)
  | Except.ok _, Except.error _ => isFalse (by intro hc; cases hc)
  | Except.error _, Except.ok _ => isFalse (by intro hc; cases hc)
  | Except.error x, Except.error y =>
    if h : x = y then isTrue (by rw [h]) else isFalse (by intro hc; cases hc; exact h rfl)

theorem samePair_iff {a b : String × String} :
    samePair a b = true ↔ (a.1 = b.1 ∧ a.2 = b.2) ∨ (a.1 = b.2 ∧ a.2 = b.1) := by
  simp [samePair]

theorem samePair_symm {a b : String × String} (h : samePair a b = true) :
    samePair b a = true := by
  rw [samePair_iff] at h ⊢
  rcases h with ⟨h1, h2⟩ | ⟨h1, h2⟩
  · exact Or.inl ⟨h1.symm, h2.symm⟩
  · exact Or.inr ⟨h2.symm, h1.symm⟩

theorem samePair_trans {a b c : String × String}
    (h1 : samePair a b = true) (h2 : samePair b c = true) : samePair a c = true := by
  rw [samePair_iff] at h1 h2 ⊢
  rcases h1 with ⟨x1, x2⟩ | ⟨x1, x2⟩ <;> rcases h2 with ⟨y1, y2⟩ | ⟨y1, y2⟩ <;>
    simp [x1, x2, y1, y2]

theorem samePair_swap (a : String × String) (u v : String) :
    samePair a (u, v) = samePair a (v, u) := by
  simp [samePair, Bool.or_comm]

@[simp] theorem Graph.add_node_edgeList (g : Graph) (n : String) :
    (g.add_node n).edgeList = g.edgeList := by
  unfold Graph.add_node; split <;> rfl

/-- The central description of `add_edge`: afterwards, the attribute of the
unordered pair `{u, v}` is `jo`, and every other pair is untouched. -/
theorem Graph.getJoinOn_add_edge (g : Graph) (u v x y : String) (jo : JoinOn) :
    (g.add_edge u v jo).getJoinOn x y =
      if samePair (u, v) (x, y) then some jo else g.getJoinOn x y := by
  unfold Graph.add_edge Graph.getJoinOn
  simp only [Graph.add_node_edgeList]
  cases hmem : g.edgeList.any (fun e => samePair (e.1, e.2.1) (u, v)) with
  | true =>
    simp only [hmem, if_true]
    rw [List.find?_map]
    have hcomp :
        ((fun e : String × String × JoinOn => samePair (e.1, e.2.1) (x, y)) ∘
          (fun e : String × String × JoinOn =>
            if samePair (e.1, e.2.1) (u, v) then (e.1, e.2.1, jo) else e)) =
        (fun e : String × String × JoinOn => samePair (e.1, e.2.1) (x, y)) := by
      funext e
      by_cases h : samePair (e.1, e.2.1) (u, v) = true <;> simp [h]
    rw [hcomp]
    by_cases hsp : samePair (u, v) (x, y) = true
    · simp only [hsp, if_true]
      rw [List.any_eq_true] at hmem
      obtain ⟨e₀, he₀, hp₀⟩ := hmem
      have hfind : ((g.edgeList.find?
          (fun e => samePair (e.1, e.2.1) (x, y)))).isSome = true := by
        rw [List.find?_isSome]
        exact ⟨e₀, he₀, samePair_trans hp₀ hsp⟩
      obtain ⟨e₁, he₁⟩ := Option.isSome_iff_exists.mp hfind
      rw [he₁]
      have hp₁ := List.find?_some he₁
      have hp₁' : samePair (e₁.1, e₁.2.1) (u, v) = true :=
        samePair_trans hp₁ (samePair_symm hsp)
      simp [hp₁']
    · simp only [hsp, if_false]
      cases hfind : g.edgeList.find? (fun e => samePair (e.1, e.2.1) (x, y)) with
      | none => simp
      | some e₁ =>
        have hp₁ := List.find?_some hfind
        have hp₁' : ¬ samePair (e₁.1, e₁.2.1) (u, v) = true := by
          intro h
          exact hsp (samePair_trans (samePair_symm h) hp₁)
        simp [hp₁']
  | false =>
    simp only [hmem, Bool.false_eq_true, if_false]
    rw [List.find?_append]
    have hmem' : ∀ e ∈ g.edgeList, ¬ samePair (e.1, e.2.1) (u, v) = true := by
      intro e he hp
      have : g.edgeList.any (fun e => samePair (e.1, e.2.1) (u, v)) = true :=
        List.any_eq_true.mpr ⟨e, he, hp⟩
      rw [hmem] at this
      exact Bool.false_ne_true this
    by_cases hsp : samePair (u, v) (x, y) = true
    · have hnone : g.edgeList.find? (fun e => samePair (e.1, e.2.1) (x, y)) = none := by
        rw [List.find?_eq_none]
        intro e he hp
        exact hmem' e he (samePair_trans hp (samePair_symm hsp))
      rw [hnone]
      simp [List.find?, hsp]
    · have hone : List.find? (fun e : String × String × JoinOn =>
          samePair (e.1, e.2.1) (x, y)) [(u, v, jo)] = none := by
        simp [List.find?, hsp]
      rw [hone]
      simp [hsp]

/-- `graph.edges[(u, v)]` and `graph.edges[(v, u)]` agree. -/
theorem Graph.getJoinOn_comm (g : Graph) (u v : String) :
    g.getJoinOn u v = g.getJoinOn v u := by
  unfold Graph.getJoinOn
  have hp : (fun e : String × String × JoinOn => samePair (e.1, e.2.1) (u, v)) =
      (fun e : String × String × JoinOn => samePair (e.1, e.2.1) (v, u)) := by
    funext e
    exact samePair_swap _ u v
  rw [hp]

theorem Graph.adj_comm (g : Graph) (u v : String) : g.adj u v ↔ g.adj v u := by
  unfold Graph.adj
  rw [Graph.getJoinOn_comm]

theorem Graph.adj_iff_exists (g : Graph) (u v : String) :
    g.adj u v ↔ ∃ e ∈ g.edgeList, samePair (e.1, e.2.1) (u, v) = true := by
  unfold Graph.adj Graph.getJoinOn
  rw [Option.isSome_map']
  exact List.find?_isSome

/-- The neighbour list enumerates exactly the adjacent nodes. -/
theorem Graph.mem_neighbors (g : Graph) (u v : String) :
    v ∈ g.neighbors u ↔ g.adj u v := by
  rw [Graph.adj_iff_exists]
  unfold Graph.neighbors
  rw [List.mem_dedup, List.mem_filterMap]
  constructor
  · rintro ⟨e, he, hfe⟩
    refine ⟨e, he, ?_⟩
    rw [samePair_iff]
    by_cases h1 : e.1 = u
    · simp only [h1, if_true] at hfe
      exact Or.inl ⟨h1, Option.some.inj hfe⟩
    · simp only [h1, if_false] at hfe
      by_cases h2 : e.2.1 = u
      · simp only [h2, if_true] at hfe
        exact Or.inr ⟨Option.some.inj hfe, h2⟩
      · simp [h2] at hfe
  · rintro ⟨e, he, hp⟩
    refine ⟨e, he, ?_⟩
    rw [samePair_iff] at hp
    rcases hp with ⟨h1, h2⟩ | ⟨h1, h2⟩ <;> dsimp only at h1 h2
    · simp [h1, h2]
    · by_cases hc : e.1 = u
      · have huv : u = v := by rw [← hc, h1]
        simp [hc, h2, huv]
      · simp only [hc, if_false, h2, if_true, h1]
        by_cases hvu : v = u <;> simp [hvu]

/-- Every edge endpoint is a node of the graph. -/
theorem Graph.endpoints_mem_nodesOf (g : Graph) {e : String × String × JoinOn}
    (he : e ∈ g.edgeList) : e.1 ∈ g.nodesOf ∧ e.2.1 ∈ g.nodesOf := by
  unfold Graph.nodesOf
  constructor <;> rw [List.mem_dedup, List.mem_append] <;> right <;>
    rw [List.mem_flatMap] <;> exact ⟨e, he, by simp⟩

/-- Neighbours are nodes. -/
theorem Graph.neighbors_subset_nodesOf (g : Graph) (u v : String)
    (h : v ∈ g.neighbors u) : v ∈ g.nodesOf := by
  unfold Graph.neighbors at h
  rw [List.mem_dedup, List.mem_filterMap] at h
  obtain ⟨e, he, hfe⟩ := h
  have hmem := g.endpoints_mem_nodesOf he
  by_cases h1 : e.1 = u
  · simp only [h1, if_true] at hfe
    exact (Option.some.inj hfe) ▸ hmem.2
  · simp only [h1, if_false] at hfe
    by_cases h2 : e.2.1 = u
    · simp only [h2, if_true] at hfe
      exact (Option.some.inj hfe) ▸ hmem.1
    · simp [h2] at hfe

theorem Graph.nodesOf_nodup (g : Graph) : g.nodesOf.Nodup := List.nodup_dedup _

/-! ## Correctness of the breadth-first search -/

theorem QInv.mono {g : Graph} {s : String} {visited visited' : List String}
    {q : List String} (h : QInv g s visited q) (hsub : ∀ x ∈ visited, x ∈ visited') :
    QInv g s visited' q :=
  ⟨h.1, h.2.1, h.2.2.1, h.2.2.2.1, fun x hx => hsub x (h.2.2.2.2 x hx)⟩

/-- Soundness of the search: a returned list is a duplicate-free walk from
`s` to `target` along edges of the graph. -/
theorem bfsLoop_sound (g : Graph) (s target : String) :
    ∀ (fuel : Nat) (queue : List (List String)) (visited : List String) (p : List String),
      (∀ q ∈ queue, QInv g s visited q) →
      bfsLoop g target fuel queue visited = some p →
      p.head? = some s ∧ p.getLast? = some target ∧ List.Chain' g.adj p ∧ p.Nodup := by
  intro fuel
  induction fuel with
  | zero => intro queue visited p _ h; simp [bfsLoop] at h
  | succ fuel ih =>
    intro queue visited p hinv h
    cases queue with
    | nil => simp [bfsLoop] at h
    | cons q rest =>
      cases q with
      | nil => exact absurd rfl (hinv [] (List.mem_cons_self _ _)).1
      | cons cur tl =>
        have hq := hinv (cur :: tl) (List.mem_cons_self _ _)
        by_cases hct : cur = target
        · have hsome : some (cur :: tl).reverse = some p := by
            rw [← h]
            simp [bfsLoop, hct]
          have hp : p = (cur :: tl).reverse := (Option.some.inj hsome).symm
          subst hp
          refine ⟨?_, ?_, ?_, ?_⟩
          · rw [List.head?_reverse]
            exact hq.2.1
          · rw [List.getLast?_reverse]
            simp [hct]
          · rw [List.chain'_reverse]
            exact List.Chain'.imp (fun a b hab => (g.adj_comm a b).mp hab) hq.2.2.1
          · exact List.nodup_reverse.mpr hq.2.2.2.1
        · have hstep : bfsLoop g target fuel
              (rest ++ ((g.neighbors cur).filter
                (fun n => decide (¬ n ∈ visited))).map (fun n => n :: cur :: tl))
              (visited ++ (g.neighbors cur).filter (fun n => decide (¬ n ∈ visited)))
              = some p := by
            rw [← h]
            simp [bfsLoop, hct]
          refine ih _ _ p ?_ hstep
          intro q' hq'
          rw [List.mem_append] at hq'
          rcases hq' with hq' | hq'
          · exact QInv.mono (hinv q' (List.mem_cons_of_mem _ hq'))
              (fun x hx => List.mem_append_left _ hx)
          · rw [List.mem_map] at hq'
            obtain ⟨n, hn, rfl⟩ := hq'
            rw [List.mem_filter] at hn
            obtain ⟨hnb, hnv⟩ := hn
            have hnv' : ¬ n ∈ visited := of_decide_eq_true hnv
            have hadj : g.adj cur n := (g.mem_neighbors cur n).mp hnb
            refine ⟨List.cons_ne_nil _ _, ?_, ?_, ?_, ?_⟩
            · rw [List.getLast?_cons_cons]
              exact hq.2.1
            · rw [List.chain'_cons]
              exact ⟨(g.adj_comm cur n).mp hadj, hq.2.2.1⟩
            · rw [List.nodup_cons]
              exact ⟨fun hmem => hnv' (hq.2.2.2.2 n hmem), hq.2.2.2.1⟩
            · intro x hx
              rcases List.mem_cons.mp hx with rfl | hx
              · exact List.mem_append_right _ (List.mem_filter.mpr ⟨hnb, hnv⟩)
              · exact List.mem_append_left _ (hq.2.2.2.2 x hx)

/-- A duplicate-free chain of adjacencies yields reflexive-transitive
reachability between its endpoints. -/
theorem chain'_to_connected (g : Graph) :
    ∀ (p : List String) (a b : String), List.Chain' g.adj p →
      p.head? = some a → p.getLast? = some b → g.Connected a b := by
  intro p
  induction p with
  | nil => intro a b _ ha _; simp at ha
  | cons x l ih =>
    intro a b hchain ha hb
    have hax : a = x := (Option.some.inj ha).symm
    subst hax
    cases l with
    | nil =>
      have : a = b := Option.some.inj hb
      subst this
      exact Relation.ReflTransGen.refl
    | cons y l' =>
      rw [List.chain'_cons] at hchain
      rw [List.getLast?_cons_cons] at hb
      exact Relation.ReflTransGen.head hchain.1 (ih y b hchain.2 rfl hb)

/-- If a set of visited nodes avoids `t`, is adjacency-closed and holds `s`,
then `t` is unreachable from `s`. -/
theorem closed_visited_not_connected (g : Graph) (t : String) (visited : List String)
    (s : String) (hcl : ∀ u ∈ visited, u ≠ t ∧ ∀ v, g.adj u v → v ∈ visited)
    (hs : s ∈ visited) : ¬ Relation.ReflTransGen g.adj s t := by
  intro hreach
  have hmem : ∀ u, Relation.ReflTransGen g.adj s u → u ∈ visited := by
    intro u h
    induction h with
    | refl => exact hs
    | tail h₁ h₂ ih => exact (hcl _ ih).2 _ h₂
  exact (hcl t (hmem t hreach)).1 rfl

/-- Completeness of the search: with fuel covering one dequeue per node, a
`none` answer means the target is in another connected component. The two
invariants say that every visited node is either still a queue head or has
been expanded (all neighbours visited, and it was not the target), and that
queue heads are visited. -/
theorem bfsLoop_complete (g : Graph) (s t : String) :
    ∀ (fuel : Nat) (queue : List (List String)) (visited : List String),
      queue.length + (g.nodesOf.toFinset \ visited.toFinset).card ≤ fuel →
      (∀ u ∈ visited,
        (∃ q ∈ queue, q.head? = some u) ∨ (u ≠ t ∧ ∀ v, g.adj u v → v ∈ visited)) →
      (∀ q ∈ queue, ∀ u, q.head? = some u → u ∈ visited) →
      s ∈ visited →
      bfsLoop g t fuel queue visited = none →
      ¬ Relation.ReflTransGen g.adj s t := by
  intro fuel
  induction fuel with
  | zero =>
    intro queue visited hfuel hV _ hs _
    have hq : queue = [] := by
      rw [← List.length_eq_zero]
      omega
    subst hq
    refine closed_visited_not_connected g t visited s ?_ hs
    intro u hu
    rcases hV u hu with ⟨q, hq, _⟩ | hr
    · exact absurd hq (List.not_mem_nil q)
    · exact hr
  | succ fuel ih =>
    intro queue visited hfuel hV hH hs hnone
    cases queue with
    | nil =>
      refine closed_visited_not_connected g t visited s ?_ hs
      intro u hu
      rcases hV u hu with ⟨q, hq, _⟩ | hr
      · exact absurd hq (List.not_mem_nil q)
      · exact hr
    | cons q rest =>
      cases q with
      | nil =>
        have h' : bfsLoop g t fuel rest visited = none := by
          rw [← hnone]; simp [bfsLoop]
        refine ih rest visited ?_ ?_ ?_ hs h'
        · simp only [List.length_cons] at hfuel
          omega
        · intro u hu
          rcases hV u hu with ⟨q', hq', hh⟩ | hr
          · rcases List.mem_cons.mp hq' with rfl | hq'
            · simp at hh
            · exact Or.inl ⟨q', hq', hh⟩
          · exact Or.inr hr
        · intro q' hq' u hh
          exact hH q' (List.mem_cons_of_mem _ hq') u hh
      | cons cur tl =>
        by_cases hct : cur = t
        · rw [show bfsLoop g t (fuel + 1) ((cur :: tl) :: rest) visited
              = some (cur :: tl).reverse by simp [bfsLoop, hct]] at hnone
          exact absurd hnone (by simp)
        · have hcurv : cur ∈ visited := hH (cur :: tl) (List.mem_cons_self _ _) cur rfl
          set ns := (g.neighbors cur).filter (fun n => decide (¬ n ∈ visited)) with hns
          have h' : bfsLoop g t fuel (rest ++ ns.map (fun n => n :: cur :: tl))
              (visited ++ ns) = none := by
            rw [← hnone]; simp [bfsLoop, hct, hns]
          have hnsnodup : ns.Nodup := (List.nodup_dedup _).filter _
          have hnssub : ns.toFinset ⊆ g.nodesOf.toFinset \ visited.toFinset := by
            intro a ha
            rw [List.mem_toFinset] at ha
            rw [List.mem_filter] at ha
            rw [Finset.mem_sdiff, List.mem_toFinset, List.mem_toFinset]
            exact ⟨g.neighbors_subset_nodesOf cur a ha.1, of_decide_eq_true ha.2⟩
          have hsdiff : g.nodesOf.toFinset \ (visited ++ ns).toFinset
              = (g.nodesOf.toFinset \ visited.toFinset) \ ns.toFinset := by
            rw [List.toFinset_append]
            ext a
            simp only [Finset.mem_sdiff, Finset.mem_union]
            tauto
          have hcard : (g.nodesOf.toFinset \ (visited ++ ns).toFinset).card
              = (g.nodesOf.toFinset \ visited.toFinset).card - ns.length := by
            rw [hsdiff, Finset.card_sdiff hnssub, List.toFinset_card_of_nodup hnsnodup]
          have hle : ns.length ≤ (g.nodesOf.toFinset \ visited.toFinset).card := by
            have := Finset.card_le_card hnssub
            rwa [List.toFinset_card_of_nodup hnsnodup] at this
          refine ih _ _ ?_ ?_ ?_ (List.mem_append_left _ hs) h'
          · rw [List.length_append, List.length_map, hcard]
            simp only [List.length_cons] at hfuel
            omega
          · intro u hu
            rcases List.mem_append.mp hu with hu | hu
            · by_cases hucur : u = cur
              · subst hucur
                refine Or.inr ⟨hct, ?_⟩
                intro v hv
                by_cases hvv : v ∈ visited
                · exact List.mem_append_left _ hvv
                · refine List.mem_append_right _ ?_
                  rw [hns, List.mem_filter]
                  exact ⟨(g.mem_neighbors u v).mpr hv, decide_eq_true hvv⟩
              · rcases hV u hu with ⟨q', hq', hh⟩ | ⟨hne, hcl⟩
                · rcases List.mem_cons.mp hq' with rfl | hq'
                  · exact absurd (Option.some.inj hh).symm hucur
                  · exact Or.inl ⟨q', List.mem_append_left _ hq', hh⟩
                · exact Or.inr ⟨hne, fun v hv => List.mem_append_left _ (hcl v hv)⟩
            · exact Or.inl ⟨u :: cur :: tl,
                List.mem_append_right _ (List.mem_map.mpr ⟨u, hu, rfl⟩), rfl⟩
          · intro q' hq' u hh
            rcases List.mem_append.mp hq' with hq' | hq'
            · exact List.mem_append_left _ (hH q' (List.mem_cons_of_mem _ hq') u hh)
            · rw [List.mem_map] at hq'
              obtain ⟨n, hn, rfl⟩ := hq'
              have : u = n := (Option.some.inj hh).symm
              subst this
              exact List.mem_append_right _ hn

/-- The fuel `(nodesOf g).length` used by `shortest_path` is sufficient:
a `none` answer really means disconnection. -/
theorem bfsLoop_none_not_connected (g : Graph) (s t : String) (hs : s ∈ g.nodesOf)
    (h : bfsLoop g t g.nodesOf.length [[s]] [s] = none) : ¬ g.Connected s t := by
  refine bfsLoop_complete g s t g.nodesOf.length [[s]] [s] ?_ ?_ ?_ ?_ h
  · have hsub : [s].toFinset ⊆ g.nodesOf.toFinset := by
      intro a ha
      simp only [List.toFinset_cons, List.toFinset_nil, insert_emptyc_eq,
        Finset.mem_singleton] at ha
      subst ha
      exact List.mem_toFinset.mpr hs
    have hcard : (g.nodesOf.toFinset \ [s].toFinset).card
        = g.nodesOf.toFinset.card - 1 := by
      rw [Finset.card_sdiff hsub]
      simp
    have hc2 : g.nodesOf.toFinset.card = g.nodesOf.length :=
      List.toFinset_card_of_nodup (g.nodesOf_nodup)
    have hpos : 0 < g.nodesOf.length :=
      List.length_pos.mpr (fun h0 => by rw [h0] at hs; exact absurd hs (List.not_mem_nil s))
    simp only [List.length_cons, List.length_nil, hcard, hc2]
    omega
  · intro u hu
    rcases List.mem_cons.mp hu with rfl | hu
    · exact Or.inl ⟨[u], List.mem_cons_self _ _, rfl⟩
    · exact absurd hu (List.not_mem_nil u)
  · intro q hq u hh
    rcases List.mem_cons.mp hq with rfl | hq
    · rw [show ([s].head? = some s) from rfl] at hh
      rw [← Option.some.inj hh]
      exact List.mem_cons_self _ _
    · exact absurd hq (List.not_mem_nil q)
  · exact List.mem_cons_self _ _

/-- A successful `nx.shortest_path` returns a duplicate-free walk from `s`
to `t`. -/
theorem shortest_path_ok (g : Graph) (s t : String) (p : List String)
    (h : shortest_path g s t = Except.ok p) :
    p.head? = some s ∧ p.getLast? = some t ∧ List.Chain' g.adj p ∧ p.Nodup := by
  unfold shortest_path at h
  by_cases hmem : s ∈ g.nodesOf ∧ t ∈ g.nodesOf
  · rw [if_pos hmem] at h
    cases hbfs : bfsLoop g t g.nodesOf.length [[s]] [s] with
    | none => rw [hbfs] at h; cases h
    | some p' =>
      rw [hbfs] at h
      have hp : p' = p := Except.ok.inj h
      subst hp
      refine bfsLoop_sound g s t _ [[s]] [s] p' ?_ hbfs
      intro q hq
      rcases List.mem_cons.mp hq with rfl | hq
      · exact ⟨List.cons_ne_nil _ _, rfl, List.chain'_singleton s, List.nodup_singleton s,
          fun x hx => hx⟩
      · exact absurd hq (List.not_mem_nil q)
  · rw [if_neg hmem] at h
    cases h

/-- When both endpoints are nodes, a failing `nx.shortest_path` fails with
`NetworkXNoPath` and its search came up empty. -/
theorem shortest_path_error (g : Graph) (s t : String) (e : ResolveErr)
    (hs : s ∈ g.nodesOf) (ht : t ∈ g.nodesOf)
    (h : shortest_path g s t = Except.error e) :
    e = ResolveErr.noPath ∧ bfsLoop g t g.nodesOf.length [[s]] [s] = none := by
  unfold shortest_path at h
  rw [if_pos ⟨hs, ht⟩] at h
  cases hbfs : bfsLoop g t g.nodesOf.length [[s]] [s] with
  | none => rw [hbfs] at h; exact ⟨(Except.error.inj h).symm, rfl⟩
  | some p => rw [hbfs] at h; cases h

/-! ## The path-processing stage -/

/-- Along a walk every edge lookup succeeds, so `buildJoins` cannot fail. -/
theorem buildJoins_ok_of_chain (g : Graph) :
    ∀ (p : List String) (acc : List (String × JoinOn)), List.Chain' g.adj p →
      ∃ l, buildJoins g p acc = Except.ok l := by
  intro p
  induction p with
  | nil => intro acc _; exact ⟨acc, rfl⟩
  | cons u p ih =>
    intro acc hchain
    cases p with
    | nil => exact ⟨acc, rfl⟩
    | cons v rest =>
      rw [List.chain'_cons] at hchain
      obtain ⟨jo, hjo⟩ := Option.isSome_iff_exists.mp hchain.1
      obtain ⟨l, hl⟩ := ih (if acc.any (fun e => e.1 == v) then acc else acc ++ [(v, jo)])
        hchain.2
      refine ⟨l, ?_⟩
      unfold buildJoins
      rw [hjo]
      exact hl

/-- The result of `buildJoins` never introduces the same table twice: the
`if path[index + 1] not in joins` check silently drops repeats. -/
theorem buildJoins_keys_nodup (g : Graph) :
    ∀ (p : List String) (acc l : List (String × JoinOn)),
      buildJoins g p acc = Except.ok l →
      (acc.map Prod.fst).Nodup → (l.map Prod.fst).Nodup := by
  intro p
  induction p with
  | nil =>
    intro acc l h hacc
    rw [show acc = l from Except.ok.inj h] at hacc
    exact hacc
  | cons u p ih =>
    intro acc l h hacc
    cases p with
    | nil =>
      rw [show acc = l from Except.ok.inj h] at hacc
      exact hacc
    | cons v rest =>
      unfold buildJoins at h
      cases hjo : g.getJoinOn u v with
      | none => rw [hjo] at h; cases h
      | some jo =>
        rw [hjo] at h
        cases hany : acc.any (fun e => e.1 == v) with
        | true =>
          rw [hany] at h
          simp only [if_true] at h
          exact ih acc l h hacc
        | false =>
          rw [hany] at h
          simp only [Bool.false_eq_true, if_false] at h
          refine ih _ l h ?_
          rw [List.map_append, List.map_cons, List.map_nil]
          rw [List.nodup_append]
          refine ⟨hacc, List.nodup_singleton _, ?_⟩
          have hall := List.any_eq_false.mp hany
          intro a ha hb
          rw [List.mem_singleton] at hb
          rw [List.mem_map] at ha
          obtain ⟨e, he, hfst⟩ := ha
          refine hall e he ?_
          rw [hfst, hb]
          exact beq_self_eq_true _

/-! ## Structure of the built graph -/

theorem nodesGraph_edgeList (schema : Schema) : (nodesGraph schema).edgeList = [] := by
  unfold nodesGraph
  suffices h : ∀ (ts : List Table) (g : Graph),
      (ts.foldl (fun g t => g.add_node t.name) g).edgeList = g.edgeList by
    rw [h schema Graph.empty]; rfl
  intro ts
  induction ts with
  | nil => intro g; rfl
  | cons t ts ih =>
    intro g
    rw [List.foldl_cons, ih, Graph.add_node_edgeList]

/-- `create_graph` is the replay of its edge-insertion sequence over the
node-only graph. -/
theorem create_graph_eq (s : Schema) :
    create_graph s = applyInsertions (nodesGraph s) (edgeInsertions s) := by
  unfold create_graph edgeInsertions nodesGraph applyInsertions
  generalize ((s.getLast?).map Table.name).getD "" = tn
  generalize s.foldl (fun g t => g.add_node t.name) Graph.empty = g0
  induction s generalizing g0 with
  | nil => rfl
  | cons t ts ih =>
    rw [List.foldl_cons, List.flatMap_cons, List.foldl_append, List.foldl_map]
    exact ih _

theorem uniquePairs_add_edge {g : Graph} (h : UniquePairs g) (u v : String) (jo : JoinOn) :
    UniquePairs (g.add_edge u v jo) := by
  unfold UniquePairs at h ⊢
  unfold Graph.add_edge
  simp only [Graph.add_node_edgeList]
  cases hany : g.edgeList.any (fun e => samePair (e.1, e.2.1) (u, v)) with
  | true =>
    simp only [hany, if_true]
    rw [List.pairwise_map]
    refine h.imp_of_mem ?_
    intro e e' _ _ hee
    by_cases h1 : samePair (e.1, e.2.1) (u, v) = true <;>
      by_cases h2 : samePair (e'.1, e'.2.1) (u, v) = true <;>
      simp only [h1, h2, if_true, if_false] <;> simpa using hee
  | false =>
    simp only [hany, Bool.false_eq_true, if_false]
    rw [List.pairwise_append]
    refine ⟨h, List.pairwise_singleton _ _, ?_⟩
    intro e he e' he'
    rw [List.mem_singleton] at he'
    subst he'
    have hall := List.any_eq_false.mp hany
    have := hall e he
    simpa using this

theorem uniquePairs_applyInsertions :
    ∀ (l : List (String × String × JoinOn)) (g : Graph),
      UniquePairs g → UniquePairs (applyInsertions g l) := by
  intro l
  induction l with
  | nil => intro g h; exact h
  | cons e l ih =>
    intro g h
    exact ih _ (uniquePairs_add_edge h e.1 e.2.1 e.2.2)

theorem create_graph_uniquePairs (s : Schema) : UniquePairs (create_graph s) := by
  rw [create_graph_eq]
  refine uniquePairs_applyInsertions _ _ ?_
  unfold UniquePairs
  rw [nodesGraph_edgeList]
  exact List.Pairwise.nil

/-- Replaying insertions realises "last write wins" per unordered pair. -/
theorem getJoinOn_applyInsertions (g : Graph) (u v : String) :
    ∀ l : List (String × String × JoinOn),
      (applyInsertions g l).getJoinOn u v =
        ((l.filter (fun e => samePair (e.1, e.2.1) (u, v))).getLast?.map
          (fun e => e.2.2)).or (g.getJoinOn u v) := by
  intro l
  induction l using List.reverseRecOn with
  | nil => simp [applyInsertions, Option.none_or]
  | append_singleton l e ih =>
    have happ : applyInsertions g (l ++ [e]) = (applyInsertions g l).add_edge e.1 e.2.1 e.2.2 := by
      unfold applyInsertions
      rw [List.foldl_append]
      rfl
    rw [happ, Graph.getJoinOn_add_edge, List.filter_append]
    cases hp : samePair (e.1, e.2.1) (u, v) with
    | true =>
      simp only [hp, if_true]
      have : List.filter (fun e => samePair (e.1, e.2.1) (u, v)) [e] = [e] := by
        simp [List.filter, hp]
      rw [this, List.getLast?_concat]
      rfl
    | false =>
      simp only [hp, Bool.false_eq_true, if_false]
      have : List.filter (fun e => samePair (e.1, e.2.1) (u, v)) [e] = [] := by
        simp [List.filter, hp]
      rw [this, List.append_nil]
      exact ih

theorem endpointsMatch_add_edge {g : Graph} (h : EndpointsMatch g) {u v : String}
    {jo : JoinOn} (hj1 : jo.1.1 = u) (hj2 : jo.2.1 = v) :
    EndpointsMatch (g.add_edge u v jo) := by
  unfold EndpointsMatch at h ⊢
  unfold Graph.add_edge
  simp only [Graph.add_node_edgeList]
  cases hany : g.edgeList.any (fun e => samePair (e.1, e.2.1) (u, v)) with
  | true =>
    simp only [hany, if_true]
    intro e' he'
    rw [List.mem_map] at he'
    obtain ⟨e, he, rfl⟩ := he'
    by_cases hp : samePair (e.1, e.2.1) (u, v) = true
    · simp only [hp, if_true]
      rw [samePair_iff] at hp
      rcases hp with ⟨h1, h2⟩ | ⟨h1, h2⟩ <;> dsimp only at h1 h2
      · exact Or.inl ⟨by rw [hj1, h1], by rw [hj2, h2]⟩
      · exact Or.inr ⟨by rw [hj1, h2], by rw [hj2, h1]⟩
    · simp only [hp, if_false]
      exact h e he
  | false =>
    simp only [hany, Bool.false_eq_true, if_false]
    intro e' he'
    rcases List.mem_append.mp he' with he' | he'
    · exact h e' he'
    · rw [List.mem_singleton] at he'
      subst he'
      exact Or.inl ⟨hj1, hj2⟩

theorem endpointsMatch_applyInsertions :
    ∀ (l : List (String × String × JoinOn)) (g : Graph), EndpointsMatch g →
      (∀ e ∈ l, e.2.2.1.1 = e.1 ∧ e.2.2.2.1 = e.2.1) →
      EndpointsMatch (applyInsertions g l) := by
  intro l
  induction l with
  | nil => intro g h _; exact h
  | cons e l ih =>
    intro g h hl
    have he := hl e (List.mem_cons_self _ _)
    exact ih _ (endpointsMatch_add_edge h he.1 he.2)
      (fun e' he' => hl e' (List.mem_cons_of_mem _ he'))

theorem create_graph_endpointsMatch (s : Schema) : EndpointsMatch (create_graph s) := by
  rw [create_graph_eq]
  refine endpointsMatch_applyInsertions _ _ ?_ ?_
  · intro e he
    rw [nodesGraph_edgeList] at he
    exact absurd he (List.not_mem_nil e)
  · intro e he
    unfold edgeInsertions at he
    rw [List.mem_flatMap] at he
    obtain ⟨t, _, he⟩ := he
    rw [List.mem_map] at he
    obtain ⟨fk, _, rfl⟩ := he
    exact ⟨rfl, rfl⟩

/-- In a graph whose stored descriptors name their endpoints, a successful
edge lookup between `u` and `v` returns a descriptor over exactly `{u, v}`. -/
theorem getJoinOn_tables {g : Graph} (hEM : EndpointsMatch g) {u v : String} {jo : JoinOn}
    (h : g.getJoinOn u v = some jo) :
    (jo.1.1 = u ∧ jo.2.1 = v) ∨ (jo.1.1 = v ∧ jo.2.1 = u) := by
  unfold Graph.getJoinOn at h
  rw [Option.map_eq_some'] at h
  obtain ⟨e, hfind, hjo⟩ := h
  have he : e ∈ g.edgeList := List.mem_of_find?_eq_some hfind
  have hp := List.find?_some hfind
  rw [samePair_iff] at hp
  have hem := hEM e he
  subst hjo
  rcases hem with ⟨h1, h2⟩ | ⟨h1, h2⟩ <;> rcases hp with ⟨p1, p2⟩ | ⟨p1, p2⟩ <;>
    dsimp only at p1 p2
  · exact Or.inl ⟨by rw [h1, p1], by rw [h2, p2]⟩
  · exact Or.inr ⟨by rw [h1, p1], by rw [h2, p2]⟩
  · exact Or.inr ⟨by rw [h1, p2], by rw [h2, p1]⟩
  · exact Or.inl ⟨by rw [h1, p2], by rw [h2, p1]⟩

/-! ## Alignment of the emitted steps with the path -/

theorem stepsOf_cons_cons (g : Graph) (u v : String) (rest : List String) :
    stepsOf g (u :: v :: rest) =
      match g.getJoinOn u v with
      | some jo => (v, jo) :: stepsOf g (v :: rest)
      | none => [] := rfl

theorem buildJoins_cons_cons (g : Graph) (u v : String) (rest : List String)
    (acc : List (String × JoinOn)) :
    buildJoins g (u :: v :: rest) acc =
      match g.getJoinOn u v with
      | none => Except.error ResolveErr.missingEdge
      | some jo =>
        buildJoins g (v :: rest)
          (if acc.any (fun e => e.1 == v) then acc else acc ++ [(v, jo)]) := rfl

/-- On a duplicate-free walk the dedup check of `buildJoins` never fires, so
it emits exactly one step per consecutive pair. -/
theorem buildJoins_eq_stepsOf (g : Graph) :
    ∀ (p : List String) (acc : List (String × JoinOn)),
      p.Nodup → List.Chain' g.adj p → (∀ e ∈ acc, ¬ e.1 ∈ p.tail) →
      buildJoins g p acc = Except.ok (acc ++ stepsOf g p) := by
  intro p
  induction p with
  | nil =>
    intro acc _ _ _
    simp [buildJoins, stepsOf]
  | cons u tl ih =>
    intro acc hnd hch hacc
    cases tl with
    | nil => simp [buildJoins, stepsOf]
    | cons v rest =>
      rw [List.chain'_cons] at hch
      obtain ⟨jo, hjo⟩ := Option.isSome_iff_exists.mp hch.1
      have hany : acc.any (fun e => e.1 == v) = false := by
        rw [List.any_eq_false]
        intro e he hb
        exact hacc e he (by rw [show e.1 = v from by simpa using hb]; exact List.mem_cons_self _ _)
      have hnd' : (v :: rest).Nodup := (List.nodup_cons.mp hnd).2
      have hstep : buildJoins g (u :: v :: rest) acc
          = buildJoins g (v :: rest) (acc ++ [(v, jo)]) := by
        rw [buildJoins_cons_cons, hjo, hany]
        simp
      rw [hstep, ih (acc ++ [(v, jo)]) hnd' hch.2 ?_]
      · rw [stepsOf_cons_cons, hjo]
        rw [List.append_assoc]
        rfl
      · intro e he
        rcases List.mem_append.mp he with he | he
        · intro hmem
          exact hacc e he (List.mem_cons_of_mem _ hmem)
        · rw [List.mem_singleton] at he
          subst he
          exact (List.nodup_cons.mp hnd').1

/-- Each emitted step introduces the pair's second node, and its descriptor
is the edge's stored `join_on`. -/
theorem stepsOf_forall₂ (g : Graph) :
    ∀ p : List String, List.Chain' g.adj p →
      List.Forall₂ (fun (st : String × JoinOn) (uv : String × String) =>
          st.1 = uv.2 ∧ g.getJoinOn uv.1 uv.2 = some st.2)
        (stepsOf g p) (p.zip p.tail) := by
  intro p
  induction p with
  | nil => intro _; exact List.Forall₂.nil
  | cons u tl ih =>
    intro hch
    cases tl with
    | nil => exact List.Forall₂.nil
    | cons v rest =>
      rw [List.chain'_cons] at hch
      obtain ⟨jo, hjo⟩ := Option.isSome_iff_exists.mp hch.1
      rw [stepsOf_cons_cons, hjo]
      rw [show ((u :: v :: rest).zip (u :: v :: rest).tail)
          = (u, v) :: ((v :: rest).zip (v :: rest).tail) from rfl]
      exact List.Forall₂.cons ⟨rfl, hjo⟩ (ih hch.2)

theorem headI_take_one (l : List String) : (l.take 1).headI = l.headI := by
  cases l <;> rfl

/-! ## The claims -/

/-- C1: the claim says that for every foreign key `(Ta.ca -> Tb.cb)` the
built graph holds an edge between `Ta` and `Tb` with owning side `(Ta, ca)`.
The code computes `table_name` from the stale node-loop variable (the last
table of `sorted_tables`), so on `bugSchema` — where `x` owns the foreign
key `rid → r.id` but `z` sorts last — there is no edge `x – r` at all; the
edge is keyed `z – r` with owning side `("z", "rid")`. -/
theorem create_graph_stale_table_name :
    (create_graph bugSchema).getJoinOn "x" "r" = none ∧
    (create_graph bugSchema).getJoinOn "z" "r" =
      some (("z", "rid"), ("r", "id")) := ⟨rfl, rfl⟩

/-- C2: on the library schema, `resolve(g, "authors", "catalogs")` returns
the two-step plan introducing `books` on `books.author_id = authors.id` and
then `catalogs` on `books.catalog_id = catalogs.id`. -/
theorem resolve_join_library_two_steps :
    resolve_join libraryGraph "authors" "catalogs" =
      Except.ok [("books", (("books", "author_id"), ("authors", "id"))),
                 ("catalogs", (("books", "catalog_id"), ("catalogs", "id")))] := rfl

/-- C3 (counterexample): fed a node sequence with the repeated node `"b"`,
the path-processing stage of `resolve_join` returns an `ok` plan of two
steps — the repeated introduction of `"b"` is silently dropped, and no
error of any kind (the code defines no `InternalResolutionError`) is
raised. -/
theorem buildJoins_repeated_node_not_error :
    buildJoins dupGraph ["a", "b", "c", "b"] [] =
      Except.ok [("b", (("b", "a_id"), ("a", "id"))),
                 ("c", (("c", "b_id"), ("b", "id")))] ∧
    ∀ err : ResolveErr,
      buildJoins dupGraph ["a", "b", "c", "b"] [] ≠ Except.error err := by
  refine ⟨rfl, ?_⟩
  intro err h
  rw [show buildJoins dupGraph ["a", "b", "c", "b"] [] =
      Except.ok [("b", (("b", "a_id"), ("a", "id"))),
                 ("c", (("c", "b_id"), ("b", "id")))] from rfl] at h
  exact Except.noConfusion h

/-- C3 (amended): given any node sequence that is a walk of the graph, the
path-processing stage of `resolve_join` succeeds and silently deduplicates:
the returned plan never introduces the same table twice, and no error is
raised for repeated nodes. -/
theorem buildJoins_silently_deduplicates (g : Graph) (p : List String)
    (hch : List.Chain' g.adj p) :
    ∃ l, buildJoins g p [] = Except.ok l ∧ (l.map Prod.fst).Nodup := by
  obtain ⟨l, hl⟩ := buildJoins_ok_of_chain g p [] hch
  exact ⟨l, hl, buildJoins_keys_nodup g p [] l hl List.nodup_nil⟩

/-- C3 (witness): the amended statement applied to the concrete repeated
path over `dupGraph`. -/
theorem buildJoins_silently_deduplicates_witness :
    List.Chain' dupGraph.adj ["a", "b", "c", "b"] ∧
    ∃ l, buildJoins dupGraph ["a", "b", "c", "b"] [] = Except.ok l ∧
      (l.map Prod.fst).Nodup := by
  have hch : List.Chain' dupGraph.adj ["a", "b", "c", "b"] := by
    refine List.chain'_cons.mpr ⟨?_, List.chain'_cons.mpr ⟨?_,
      List.chain'_cons.mpr ⟨?_, List.chain'_singleton _⟩⟩⟩ <;> decide
  exact ⟨hch, buildJoins_silently_deduplicates dupGraph ["a", "b", "c", "b"] hch⟩

/-- C4: for nodes `a`, `b` of the graph, `resolve_join` fails with
`NoPathError` exactly when `a` and `b` are in different connected
components, and returns a complete plan whenever they are connected. -/
theorem resolve_join_noPath_iff (g : Graph) (a b : String)
    (ha : a ∈ g.nodesOf) (hb : b ∈ g.nodesOf) :
    (resolve_join g a b = Except.error ResolveErr.noPath ↔ ¬ g.Connected a b) ∧
    (g.Connected a b → ∃ plan, resolve_join g a b = Except.ok plan) := by
  cases hsp : shortest_path g a b with
  | error e =>
    obtain ⟨he, hbfs⟩ := shortest_path_error g a b e ha hb hsp
    subst he
    have hnc : ¬ g.Connected a b := bfsLoop_none_not_connected g a b ha hbfs
    constructor
    · constructor
      · intro _; exact hnc
      · intro _
        unfold resolve_join
        rw [hsp]
        rfl
    · intro hc; exact absurd hc hnc
  | ok p =>
    obtain ⟨hh, hl, hch, _⟩ := shortest_path_ok g a b p hsp
    have hc : g.Connected a b := chain'_to_connected g p a b hch hh hl
    obtain ⟨l, hbl⟩ := buildJoins_ok_of_chain g p [] hch
    have hres : resolve_join g a b = Except.ok l := by
      unfold resolve_join
      rw [hsp]
      exact hbl
    constructor
    · constructor
      · intro h
        rw [hres] at h
        exact Except.noConfusion h
      · intro hnc; exact absurd hc hnc
    · intro _; exact ⟨l, hres⟩

/-- C4 (witness): the statement applied to the library graph's `authors`
and `catalogs` nodes. -/
theorem resolve_join_noPath_iff_witness :
    ("authors" ∈ libraryGraph.nodesOf ∧ "catalogs" ∈ libraryGraph.nodesOf) ∧
    ((resolve_join libraryGraph "authors" "catalogs" = Except.error ResolveErr.noPath ↔
        ¬ libraryGraph.Connected "authors" "catalogs") ∧
      (libraryGraph.Connected "authors" "catalogs" →
        ∃ plan, resolve_join libraryGraph "authors" "catalogs" = Except.ok plan)) :=
  ⟨⟨by decide, by decide⟩,
    resolve_join_noPath_iff libraryGraph "authors" "catalogs" (by decide) (by decide)⟩

/-- C5: for every node `X` of the graph, `resolve(g, X, X)` returns the
empty join plan. -/
theorem resolve_join_self (g : Graph) (X : String) (h : X ∈ g.nodesOf) :
    resolve_join g X X = Except.ok [] := by
  unfold resolve_join shortest_path
  rw [if_pos ⟨h, h⟩]
  obtain ⟨m, hm⟩ : ∃ m, g.nodesOf.length = m + 1 := by
    have hpos : 0 < g.nodesOf.length :=
      List.length_pos.mpr (fun h0 => by rw [h0] at h; exact absurd h (List.not_mem_nil X))
    exact ⟨g.nodesOf.length - 1, by omega⟩
  rw [hm]
  rw [show bfsLoop g X (m + 1) [[X]] [X] = some [X] from by simp [bfsLoop]]
  rfl

/-- C5 (witness): the statement applied to the library graph's `authors`
node. -/
theorem resolve_join_self_witness :
    "authors" ∈ libraryGraph.nodesOf ∧
    resolve_join libraryGraph "authors" "authors" = Except.ok [] :=
  ⟨by decide, resolve_join_self libraryGraph "authors" (by decide)⟩

/-- C6: every successful resolve over a built graph follows the returned
shortest path: the emitted steps pair off with the path's consecutive pairs
`(t_i, t_{i+1})`, each step introduces `t_{i+1}`, and its predicate's two
table references are exactly `t_i` and `t_{i+1}` — in one of the two
orientations, regardless of which table owned the foreign key. -/
theorem resolve_join_steps_follow_path (s : Schema) (a b : String)
    (plan : List (String × JoinOn))
    (h : resolve_join (create_graph s) a b = Except.ok plan) :
    ∃ p : List String, shortest_path (create_graph s) a b = Except.ok p ∧
      p.head? = some a ∧ p.getLast? = some b ∧
      List.Forall₂ (fun (st : String × JoinOn) (uv : String × String) =>
          st.1 = uv.2 ∧
          ((st.2.1.1 = uv.1 ∧ st.2.2.1 = uv.2) ∨
           (st.2.1.1 = uv.2 ∧ st.2.2.1 = uv.1)))
        plan (p.zip p.tail) := by
  unfold resolve_join at h
  cases hsp : shortest_path (create_graph s) a b with
  | error e => rw [hsp] at h; exact Except.noConfusion h
  | ok p =>
    rw [hsp] at h
    have h' : buildJoins (create_graph s) p [] = Except.ok plan := h
    obtain ⟨hh, hl, hch, hnd⟩ := shortest_path_ok _ a b p hsp
    rw [buildJoins_eq_stepsOf (create_graph s) p [] hnd hch
      (fun e he => absurd he (List.not_mem_nil e))] at h'
    have hplan : plan = stepsOf (create_graph s) p := by
      have hinj := Except.ok.inj h'
      rw [← hinj]
      simp
    subst hplan
    refine ⟨p, rfl, hh, hl, ?_⟩
    have hf := stepsOf_forall₂ (create_graph s) p hch
    have hEM := create_graph_endpointsMatch s
    refine List.Forall₂.imp ?_ hf
    intro st uv hst
    exact ⟨hst.1, getJoinOn_tables hEM hst.2⟩

/-- C6 (witness): the statement applied to the library schema and its
two-step `authors → catalogs` plan. -/
theorem resolve_join_steps_follow_path_witness :
    resolve_join (create_graph librarySchema) "authors" "catalogs" =
      Except.ok [("books", (("books", "author_id"), ("authors", "id"))),
                 ("catalogs", (("books", "catalog_id"), ("catalogs", "id")))] ∧
    (∃ p : List String,
      shortest_path (create_graph librarySchema) "authors" "catalogs" = Except.ok p ∧
      p.head? = some "authors" ∧ p.getLast? = some "catalogs" ∧
      List.Forall₂ (fun (st : String × JoinOn) (uv : String × String) =>
          st.1 = uv.2 ∧
          ((st.2.1.1 = uv.1 ∧ st.2.2.1 = uv.2) ∨
           (st.2.1.1 = uv.2 ∧ st.2.2.1 = uv.1)))
        [("books", (("books", "author_id"), ("authors", "id"))),
         ("catalogs", (("books", "catalog_id"), ("catalogs", "id")))]
        (p.zip p.tail)) :=
  ⟨rfl, resolve_join_steps_follow_path librarySchema "authors" "catalogs"
    [("books", (("books", "author_id"), ("authors", "id"))),
     ("catalogs", (("books", "catalog_id"), ("catalogs", "id")))] rfl⟩

/-- C7: the built graph stores at most one edge (one descriptor) per
unordered table pair, and the descriptor it retains for a pair is the one
of the last `add_edge` call for that pair during construction — later
foreign keys between the same two tables silently overwrite earlier ones,
and this is never an error (`create_graph` is total). -/
theorem create_graph_one_edge_last_wins (s : Schema) (u v : String) :
    UniquePairs (create_graph s) ∧
    (create_graph s).getJoinOn u v =
      ((edgeInsertions s).filter (fun e => samePair (e.1, e.2.1) (u, v))).getLast?.map
        (fun e => e.2.2) := by
  refine ⟨create_graph_uniquePairs s, ?_⟩
  rw [create_graph_eq, getJoinOn_applyInsertions]
  have hbase : (nodesGraph s).getJoinOn u v = none := by
    unfold Graph.getJoinOn
    rw [nodesGraph_edgeList]
    rfl
  rw [hbase, Option.or_none]

/-- C8 (counterexample): with `plot=True` — the parameter's default and the
value of the script's call `create_graph(Base, plot=True)` — the builder's
effect trace is not empty: it renders the graph, which is I/O. -/
theorem create_graph_default_plot_effect :
    (create_graph_run librarySchema true).2 = [Effect.plot] ∧
    (create_graph_run librarySchema true).2 ≠ ([] : List Effect) := by
  refine ⟨rfl, ?_⟩
  intro h
  rw [show (create_graph_run librarySchema true).2 = [Effect.plot] from rfl] at h
  exact List.noConfusion h

/-- C8 (amended): the graph construction itself is pure — the returned
graph depends only on the schema, never on the plot flag, and no other
state is touched — and with `plot=False` the builder performs no I/O at
all; only `plot=True` adds the plotting effect. -/
theorem create_graph_run_pure_graph (s : Schema) (pl : Bool) :
    (create_graph_run s pl).1 = create_graph s ∧
    (create_graph_run s false).2 = ([] : List Effect) :=
  ⟨rfl, rfl⟩

/-- C9: `resolve_join` is deterministic — two calls on the same graph and
table pair produce identical results. -/
theorem resolve_join_deterministic (g : Graph) (a b : String)
    (r₁ r₂ : Except ResolveErr (List (String × JoinOn)))
    (h₁ : resolve_join g a b = r₁) (h₂ : resolve_join g a b = r₂) : r₁ = r₂ := by
  rw [← h₁, ← h₂]

/-- C9 (witness): the statement applied to the library graph, with both
results computed. -/
theorem resolve_join_deterministic_witness :
    resolve_join libraryGraph "authors" "catalogs" =
      Except.ok [("books", (("books", "author_id"), ("authors", "id"))),
                 ("catalogs", (("books", "catalog_id"), ("catalogs", "id")))] :=
  resolve_join_deterministic libraryGraph "authors" "catalogs"
    (resolve_join libraryGraph "authors" "catalogs")
    (Except.ok [("books", (("books", "author_id"), ("authors", "id"))),
                ("catalogs", (("books", "catalog_id"), ("catalogs", "id")))])
    rfl rfl

/-- C10: only the first column of each foreign-key constraint's
`column_keys` list ever reaches a descriptor: truncating every constraint's
column list to its first element leaves the built graph unchanged, so all
further columns of a composite foreign key are silently omitted. -/
theorem create_graph_ignores_tail_columns (s : Schema) :
    create_graph (s.map (fun t =>
      { t with fks := t.fks.map (fun fk => { fk with column_keys := fk.column_keys.take 1 }) }))
      = create_graph s := by
  rw [create_graph_eq, create_graph_eq]
  have hnodes : nodesGraph (s.map (fun t =>
      { t with fks := t.fks.map (fun fk => { fk with column_keys := fk.column_keys.take 1 }) }))
      = nodesGraph s := by
    unfold nodesGraph
    rw [List.foldl_map]
  have hins : edgeInsertions (s.map (fun t =>
      { t with fks := t.fks.map (fun fk => { fk with column_keys := fk.column_keys.take 1 }) }))
      = edgeInsertions s := by
    unfold edgeInsertions
    rw [List.getLast?_map, Option.map_map, List.flatMap_map]
    have hname : (Option.map (Table.name ∘ fun t =>
        { t with fks := t.fks.map (fun fk => { fk with column_keys := fk.column_keys.take 1 }) })
        s.getLast?) = Option.map Table.name s.getLast? := by
      cases s.getLast? <;> rfl
    rw [hname]
    refine congrArg _ ?_
    funext t
    rw [List.map_map]
    refine List.map_congr_left ?_
    intro fk _
    simp [Function.comp, fkInsertion, headI_take_one]
  rw [hnodes, hins]

end AutoJoin
